import Mathlib

/-!
Shallow embedding of the cron-expression parser (`parser.js` of the
`cron-parser` repository).  Field expressions are modelled as `List Char`,
JavaScript's number results as `Int`, and thrown `Error`s as `none` of an
`Option` result.  Each definition below mirrors one function of the source.
-/

namespace CronParser

/-- JavaScript whitespace (the characters relevant to `String.trim` and the
`\s` regex class used by the source). -/
def isWS (c : Char) : Bool :=
  c = ' ' || c = '\t' || c = '\n' || c = '\r' || c = '\x0b' || c = '\x0c'

/-- `String.prototype.trim()`: drop leading and trailing whitespace. -/
def trimChars (s : List Char) : List Char :=
  ((s.dropWhile isWS).reverse.dropWhile isWS).reverse

/-- Value of the leading run of decimal digits, `none` when that run is
empty.  Helper for `parseIntJS`. -/
def digitsVal (s : List Char) : Option Nat :=
  match s.takeWhile Char.isDigit with
  | [] => none
  | ds => some (ds.foldl (fun a c => a * 10 + (c.toNat - 48)) 0)

/-- JavaScript `parseInt(s, 10)`: skip leading whitespace, optional sign,
then the value of the leading digit run; `NaN` (here `none`) when no digit
follows. -/
def parseIntJS (s : List Char) : Option Int :=
  match s.dropWhile isWS with
  | '-' :: rest => (digitsVal rest).map (fun n => -(n : Int))
  | '+' :: rest => (digitsVal rest).map (fun n => (n : Int))
  | s1 => (digitsVal s1).map (fun n => (n : Int))

/-- Split at every character satisfying `p`, keeping empty pieces, exactly
like `String.prototype.split` with a single-character separator. -/
def splitP (p : Char → Bool) : List Char → List (List Char)
  | [] => [[]]
  | c :: cs =>
    if p c then [] :: splitP p cs
    else
      match splitP p cs with
      | [] => [[c]]
      | t :: ts => (c :: t) :: ts

/-- `s.split(sep)` for a one-character separator `sep`. -/
def splitChar (sep : Char) (s : List Char) : List (List Char) :=
  splitP (fun c => c == sep) s

/-- Rebuild a list expression from comma-separated elements (the inverse of
`splitChar ','` on comma-free elements).  Used to state the trimming claim:
"the same list without the spaces" is the rejoined list of trimmed
elements. -/
def joinComma : List (List Char) → List Char
  | [] => []
  | [p] => p
  | p :: ps => p ++ ',' :: joinComma ps

/-- The loop body of `generateRange`: `for (let i = start; i <= end; i += step)
push(i)`, driven by an explicit iteration budget.  `generateRange` supplies a
budget that is provably never the binding constraint when `0 < step`
(see `genLoop_eq_arithSeq`). -/
def genLoop : Nat → Int → Int → Int → List Int
  | 0, _, _, _ => []
  | fuel + 1, i, e, step => if i ≤ e then i :: genLoop fuel (i + step) e step else []

/-- `generateRange(start, end, step)` of the source.  With `step ≥ 1` the
loop executes at most `(end - start).toNat + 1` times, which is the budget
passed to `genLoop`. -/
def generateRange (start e step : Int) : List Int :=
  genLoop ((e - start).toNat + 1) start e step

/-- Modelled from the spec's words (§4.1): the arithmetic sequence
`start, start+n, start+2n, ...` of all values `≤ e` (empty when
`start > e`).  Used to compare the source's `generateRange` loop against
the specification's description of step and range results. -/
def arithSeq (start n e : Int) : List Int :=
  if start ≤ e then
    (List.range ((e - start).toNat / n.toNat + 1)).map (fun k : Nat => start + n * (k : Int))
  else []

/-- `values.add(v)` on a JavaScript `Set` held as its insertion-order list. -/
def addToSet (s : List Int) (v : Int) : List Int :=
  if v ∈ s then s else s ++ [v]

/-- `parsedValues.forEach(v => values.add(v))`. -/
def addAll (s : List Int) (l : List Int) : List Int :=
  l.foldl addToSet s

/-- `parseStepValue(expression, min, max)` of the source: split on `/`,
require a positive integer step, then resolve the base (`*`, a range, or a
bare start value) and generate the stepped range. -/
def parseStepValue (expr : List Char) (mn mx : Int) : Option (List Int) :=
  match splitChar '/' expr with
  | r :: st :: _ =>
    match parseIntJS st with
    | none => none
    | some n =>
      if n ≤ 0 then none
      else if r = ['*'] then some (generateRange mn mx n)
      else if '-' ∈ r then
        match splitChar '-' r with
        | a :: b :: _ =>
          match parseIntJS a, parseIntJS b with
          | some av, some bv => some (generateRange av bv n)
          | _, _ => none
        | _ => none
      else
        match parseIntJS r with
        | some s => some (generateRange s mx n)
        | none => none
  | _ => none

/-- `parseRange(expression, min, max)` of the source: split on `-`, parse
both endpoints, validate bounds, then generate the unit-step range. -/
def parseRange (expr : List Char) (mn mx : Int) : Option (List Int) :=
  match splitChar '-' expr with
  | a :: b :: _ =>
    match parseIntJS a, parseIntJS b with
    | some av, some bv =>
      if av < mn ∨ bv > mx ∨ av > bv then none
      else some (generateRange av bv 1)
    | _, _ => none
  | _ => none

/-- `parseField(expression, min, max)` of the source, with an explicit
recursion budget.  The only recursion is from the list case back into the
dispatch; list elements contain no `,`, so a budget exceeding the number of
commas always suffices (`parseFieldF_congr`).  The list case inlines the
source's `parseList`: parse each comma-separated part (trimmed), accumulate
the values into a set, and sort ascending. -/
def parseFieldF : Nat → List Char → Int → Int → Option (List Int)
  | 0, _, _, _ => none
  | f + 1, expr, mn, mx =>
    if expr = ['*'] then some (generateRange mn mx 1)
    else if '/' ∈ expr then parseStepValue expr mn mx
    else if '-' ∈ expr ∧ ¬ (',' ∈ expr) then parseRange expr mn mx
    else if ',' ∈ expr then
      match (splitChar ',' expr).foldlM
          (fun acc p => (parseFieldF f (trimChars p) mn mx).map (addAll acc)) [] with
      | none => none
      | some vals => some (List.insertionSort (· ≤ ·) vals)
    else
      match parseIntJS expr with
      | none => none
      | some v => if v < mn ∨ v > mx then none else some [v]

/-- `parseField` of the source: the budget `count ',' + 1` is always enough
(list elements never contain a comma, so recursion depth is at most 2). -/
def parseField (expr : List Char) (mn mx : Int) : Option (List Int) :=
  parseFieldF (expr.count ',' + 1) expr mn mx

/-- `parseList(expression, min, max)` of the source as a standalone
function: parse each comma-separated part (trimmed) via `parseField`,
union the values into a set, and sort ascending. -/
def parseList (expr : List Char) (mn mx : Int) : Option (List Int) :=
  match (splitChar ',' expr).foldlM
      (fun acc p => (parseField (trimChars p) mn mx).map (addAll acc)) [] with
  | none => none
  | some vals => some (List.insertionSort (· ≤ ·) vals)

/-- The `FIELD_CONFIG` table of the source: `(min, max)` for minute, hour,
day of month, month, day of week. -/
def FIELD_CONFIG : List (Int × Int) :=
  [(0, 59), (0, 23), (1, 31), (1, 12), (0, 6)]

/-- Result record of `parseCronExpression`. -/
structure CronSchedule where
  minute : List Int
  hour : List Int
  dayOfMonth : List Int
  month : List Int
  dayOfWeek : List Int
  command : List Char
deriving DecidableEq

/-- `cronString.trim().split(/\s+/)`: for a trimmed non-empty string this is
the list of maximal non-whitespace runs; `"".split(/\s+/)` is `[""]`. -/
def wsTokens (cs : List Char) : List (List Char) :=
  match trimChars cs with
  | [] => [[]]
  | t => (splitP isWS t).filter (fun p => !p.isEmpty)

/-- `commandParts.join(' ')`. -/
def joinSpaces (parts : List (List Char)) : List Char :=
  (parts.intersperse [' ']).flatten

/-- `parseCronExpression(cronString)` of the source: reject empty input,
tokenize, require at least six tokens, expand the five fields against
`FIELD_CONFIG`, and rejoin the remaining tokens as the command. -/
def parseCronExpression (s : String) : Option CronSchedule :=
  let cs := s.toList
  if cs = [] then none
  else
    let parts := wsTokens cs
    if parts.length < 6 then none
    else
      match parts with
      | mi :: h :: dom :: mo :: dw :: cmdParts =>
        match parseField mi 0 59, parseField h 0 23, parseField dom 1 31,
              parseField mo 1 12, parseField dw 0 6 with
        | some l1, some l2, some l3, some l4, some l5 =>
          some ⟨l1, l2, l3, l4, l5, joinSpaces cmdParts⟩
        | _, _, _, _, _ => none
      | _ => none

end CronParser

namespace CronParser

/-! ### Basic facts about splitting, trimming and the range loop -/

theorem splitP_ne_nil (p : Char → Bool) (s : List Char) : splitP p s ≠ [] := by
  induction s with
  | nil => simp [splitP]
  | cons c cs ih =>
    rw [splitP]
    by_cases h : p c = true
    · simp [h]
    · simp only [h, if_false]
      cases hsp : splitP p cs with
      | nil => simp
      | cons t ts => simp

theorem splitP_mem_sub {p : Char → Bool} :
    ∀ {s q : List Char}, q ∈ splitP p s → ∀ {c : Char}, c ∈ q → c ∈ s ∧ p c = false := by
  intro s
  induction s with
  | nil =>
    intro q hq c hc
    simp [splitP] at hq
    subst hq
    simp at hc
  | cons a as ih =>
    intro q hq c hc
    rw [splitP] at hq
    by_cases h : p a = true
    · simp only [h, if_true, List.mem_cons] at hq
      rcases hq with hq | hq
      · subst hq; simp at hc
      · rcases ih hq hc with ⟨h1, h2⟩
        exact ⟨List.mem_cons_of_mem _ h1, h2⟩
    · simp only [h, if_false] at hq
      cases hsp : splitP p as with
      | nil => exact absurd hsp (splitP_ne_nil p as)
      | cons t ts =>
        rw [hsp] at hq
        rcases List.mem_cons.mp hq with hq | hq
        · subst hq
          rcases List.mem_cons.mp hc with hc | hc
          · subst hc
            exact ⟨List.mem_cons_self _ _, Bool.not_eq_true _ ▸ h⟩
          · have ht : t ∈ splitP p as := hsp ▸ List.mem_cons_self t ts
            rcases ih ht hc with ⟨h1, h2⟩
            exact ⟨List.mem_cons_of_mem _ h1, h2⟩
        · have hts : q ∈ splitP p as := hsp ▸ List.mem_cons_of_mem t hq
          rcases ih hts hc with ⟨h1, h2⟩
          exact ⟨List.mem_cons_of_mem _ h1, h2⟩

theorem splitChar_ne_nil (sep : Char) (s : List Char) : splitChar sep s ≠ [] :=
  splitP_ne_nil _ s

theorem splitChar_not_mem {sep : Char} {s q : List Char} (hq : q ∈ splitChar sep s) :
    sep ∉ q := by
  intro hmem
  have := (splitP_mem_sub hq hmem).2
  simp at this

theorem splitChar_mem_sub {sep : Char} {s q : List Char} (hq : q ∈ splitChar sep s)
    {c : Char} (hc : c ∈ q) : c ∈ s :=
  (splitP_mem_sub hq hc).1

theorem mem_trimChars {s : List Char} {c : Char} (h : c ∈ trimChars s) : c ∈ s := by
  unfold trimChars at h
  rw [List.mem_reverse] at h
  have h1 := (@List.dropWhile_sublist _ ((s.dropWhile isWS).reverse) isWS).mem h
  rw [List.mem_reverse] at h1
  exact (List.dropWhile_sublist isWS).mem h1

theorem trimChars_count_comma_eq_zero {q : List Char} (h : ',' ∉ q) :
    (trimChars q).count ',' = 0 :=
  List.count_eq_zero.mpr fun hm => h (mem_trimChars hm)

theorem genLoop_nil_of_gt {i e st : Int} (h : e < i) : ∀ f, genLoop f i e st = [] := by
  intro f
  cases f with
  | zero => rfl
  | succ f => simp [genLoop, not_le.mpr h]

theorem genLoop_mem_bounds {e st : Int} (hst : 0 < st) :
    ∀ (f : Nat) (i v : Int), v ∈ genLoop f i e st → i ≤ v ∧ v ≤ e := by
  intro f
  induction f with
  | zero => intro i v hv; simp [genLoop] at hv
  | succ f ih =>
    intro i v hv
    rw [genLoop] at hv
    by_cases hie : i ≤ e
    · simp only [hie, if_true, List.mem_cons] at hv
      rcases hv with rfl | hv
      · exact ⟨le_refl _, hie⟩
      · rcases ih (i + st) v hv with ⟨h1, h2⟩
        exact ⟨by omega, h2⟩
    · simp [hie] at hv

theorem genLoop_sorted {e st : Int} (hst : 0 < st) :
    ∀ (f : Nat) (i : Int), (genLoop f i e st).Sorted (· < ·) := by
  intro f
  induction f with
  | zero => intro i; simp [genLoop]
  | succ f ih =>
    intro i
    rw [genLoop]
    by_cases hie : i ≤ e
    · simp only [hie, if_true, List.sorted_cons]
      refine ⟨fun b hb => ?_, ih (i + st)⟩
      have := (genLoop_mem_bounds hst f (i + st) b hb).1
      omega
    · simp [hie]

theorem genLoop_length {e st : Int} : ∀ (f : Nat) (i : Int), (genLoop f i e st).length ≤ f := by
  intro f
  induction f with
  | zero => intro i; simp [genLoop]
  | succ f ih =>
    intro i
    rw [genLoop]
    by_cases hie : i ≤ e
    · simpa [hie] using ih (i + st)
    · simp [hie]

theorem generateRange_ne_nil {i e st : Int} (h : i ≤ e) : generateRange i e st ≠ [] := by
  rw [generateRange, genLoop]
  simp [h]

theorem generateRange_length {i e st : Int} :
    (generateRange i e st).length ≤ (e - i).toNat + 1 :=
  genLoop_length _ i

theorem generateRange_mem_bounds {i e st : Int} (hst : 0 < st) {v : Int}
    (hv : v ∈ generateRange i e st) : i ≤ v ∧ v ≤ e :=
  genLoop_mem_bounds hst _ i v hv

theorem generateRange_sorted {i e st : Int} (hst : 0 < st) :
    (generateRange i e st).Sorted (· < ·) :=
  genLoop_sorted hst _ i

end CronParser

namespace CronParser

/-! ### The set accumulation of the list rule -/

theorem mem_addToSet {s : List Int} {v w : Int} : w ∈ addToSet s v ↔ w ∈ s ∨ w = v := by
  unfold addToSet
  by_cases h : v ∈ s
  · simp only [h, if_true]
    constructor
    · exact fun hw => Or.inl hw
    · rintro (hw | rfl)
      · exact hw
      · exact h
  · simp [h]

theorem nodup_addToSet {s : List Int} {v : Int} (h : s.Nodup) : (addToSet s v).Nodup := by
  unfold addToSet
  by_cases hv : v ∈ s
  · simpa [hv]
  · simp only [hv, if_false]
    exact List.Nodup.append h (List.nodup_singleton v) (by simpa using hv)

theorem mem_addAll {l : List Int} :
    ∀ {s : List Int} {w : Int}, w ∈ addAll s l ↔ w ∈ s ∨ w ∈ l := by
  induction l with
  | nil => intro s w; simp [addAll]
  | cons v vs ih =>
    intro s w
    show w ∈ addAll (addToSet s v) vs ↔ _
    rw [ih, mem_addToSet]
    simp [or_assoc]

theorem nodup_addAll {l : List Int} :
    ∀ {s : List Int}, s.Nodup → (addAll s l).Nodup := by
  induction l with
  | nil => intro s hs; simpa [addAll]
  | cons v vs ih =>
    intro s hs
    exact ih (nodup_addToSet hs)

/-- The accumulation loop of the list rule, fully characterised on success:
membership, success of every part, and preservation of distinctness. -/
theorem foldlM_addAll_some {pf : List Char → Option (List Int)} :
    ∀ (parts : List (List Char)) (init vals : List Int),
      parts.foldlM (fun acc p => (pf p).map (addAll acc)) init = some vals →
      (∀ w : Int, w ∈ vals ↔ w ∈ init ∨ ∃ p ∈ parts, ∃ lp, pf p = some lp ∧ w ∈ lp) ∧
      (∀ p ∈ parts, ∃ lp, pf p = some lp) ∧
      (init.Nodup → vals.Nodup) := by
  intro parts
  induction parts with
  | nil =>
    intro init vals h
    have h' : init = vals := Option.some.inj h
    subst h'
    refine ⟨fun w => ?_, by simp, fun h => h⟩
    simp
  | cons p ps ih =>
    intro init vals h
    rw [List.foldlM_cons] at h
    cases hp : pf p with
    | none =>
      rw [hp] at h
      exact Option.noConfusion h
    | some lp =>
      rw [hp] at h
      rcases ih (addAll init lp) vals h with ⟨hmem, hall, hnd⟩
      refine ⟨fun w => ?_, ?_, fun hinit => hnd (nodup_addAll hinit)⟩
      · rw [hmem w, mem_addAll]
        constructor
        · rintro ((hw | hw) | ⟨q, hq, lq, hlq, hw⟩)
          · exact Or.inl hw
          · exact Or.inr ⟨p, List.mem_cons_self _ _, lp, hp, hw⟩
          · exact Or.inr ⟨q, List.mem_cons_of_mem _ hq, lq, hlq, hw⟩
        · rintro (hw | ⟨q, hq, lq, hlq, hw⟩)
          · exact Or.inl (Or.inl hw)
          · rcases List.mem_cons.mp hq with rfl | hq
            · rw [hp] at hlq
              cases hlq
              exact Or.inl (Or.inr hw)
            · exact Or.inr ⟨q, hq, lq, hlq, hw⟩
      · intro q hq
        rcases List.mem_cons.mp hq with rfl | hq
        · exact ⟨lp, hp⟩
        · exact hall q hq

/-- The accumulation loop only depends on the values of the part parser. -/
theorem foldlM_addAll_congr {pf pg : List Char → Option (List Int)} :
    ∀ (parts : List (List Char)), (∀ p ∈ parts, pf p = pg p) → ∀ init : List Int,
      parts.foldlM (fun acc p => (pf p).map (addAll acc)) init
        = parts.foldlM (fun acc p => (pg p).map (addAll acc)) init := by
  intro parts
  induction parts with
  | nil => intro _ init; simp
  | cons p ps ih =>
    intro h init
    rw [List.foldlM_cons, List.foldlM_cons, h p (List.mem_cons_self _ _)]
    cases pg p with
    | none => rfl
    | some lp => exact ih (fun q hq => h q (List.mem_cons_of_mem _ hq)) (addAll init lp)

/-! ### Recursion budget of `parseFieldF` -/

/-- Any budget exceeding the number of commas gives the same result: the
list rule only recurses into comma-free elements. -/
theorem parseFieldF_congr :
    ∀ (f g : Nat) (expr : List Char) (mn mx : Int),
      expr.count ',' < f → expr.count ',' < g →
      parseFieldF f expr mn mx = parseFieldF g expr mn mx := by
  intro f
  induction f with
  | zero => intro g expr mn mx hf; omega
  | succ f ih =>
    intro g expr mn mx hf hg
    cases g with
    | zero => omega
    | succ g =>
      rw [parseFieldF, parseFieldF]
      by_cases h1 : expr = ['*']
      · simp [h1]
      · simp only [h1, if_false]
        by_cases h2 : '/' ∈ expr
        · simp [h2]
        · simp only [h2, if_false]
          by_cases h3 : '-' ∈ expr ∧ ¬ (',' ∈ expr)
          · simp [h3]
          · simp only [h3, if_false]
            by_cases h4 : ',' ∈ expr
            · simp only [h4, if_true]
              have hcnt : 1 ≤ expr.count ',' := List.count_pos_iff.mpr h4
              have hfold :
                  (splitChar ',' expr).foldlM
                      (fun acc p => (parseFieldF f (trimChars p) mn mx).map (addAll acc)) []
                    = (splitChar ',' expr).foldlM
                      (fun acc p => (parseFieldF g (trimChars p) mn mx).map (addAll acc)) [] := by
                refine foldlM_addAll_congr _ (fun p hp => ?_) []
                have hz : (trimChars p).count ',' = 0 :=
                  trimChars_count_comma_eq_zero (splitChar_not_mem hp)
                exact ih g (trimChars p) mn mx (by omega) (by omega)
              rw [hfold]
            · simp [h4]

/-! ### Dispatch of `parseField` -/

theorem parseField_eq_parseStepValue {expr : List Char} {mn mx : Int} (h : '/' ∈ expr) :
    parseField expr mn mx = parseStepValue expr mn mx := by
  have hne : expr ≠ ['*'] := by
    rintro rfl
    simp at h
  rw [parseField, parseFieldF, if_neg hne, if_pos h]

theorem parseField_eq_parseRange {expr : List Char} {mn mx : Int}
    (h1 : '/' ∉ expr) (h2 : '-' ∈ expr) (h3 : ',' ∉ expr) :
    parseField expr mn mx = parseRange expr mn mx := by
  have hne : expr ≠ ['*'] := by
    rintro rfl
    simp at h2
  rw [parseField, parseFieldF, if_neg hne, if_neg h1, if_pos ⟨h2, h3⟩]

theorem parseField_eq_parseList {expr : List Char} {mn mx : Int}
    (h1 : '/' ∉ expr) (h2 : ',' ∈ expr) :
    parseField expr mn mx = parseList expr mn mx := by
  have hne : expr ≠ ['*'] := by
    rintro rfl
    simp at h2
  have h3 : ¬ ('-' ∈ expr ∧ ¬ (',' ∈ expr)) := fun hc => hc.2 h2
  rw [parseField, parseFieldF, if_neg hne, if_neg h1, if_neg h3, if_pos h2, parseList]
  have hcnt : 1 ≤ expr.count ',' := List.count_pos_iff.mpr h2
  have hfold :
      (splitChar ',' expr).foldlM
          (fun acc p => (parseFieldF (expr.count ',') (trimChars p) mn mx).map (addAll acc)) []
        = (splitChar ',' expr).foldlM
          (fun acc p => (parseField (trimChars p) mn mx).map (addAll acc)) [] := by
    refine foldlM_addAll_congr _ (fun p hp => ?_) []
    have hz : (trimChars p).count ',' = 0 :=
      trimChars_count_comma_eq_zero (splitChar_not_mem hp)
    rw [parseField]
    exact parseFieldF_congr _ _ (trimChars p) mn mx (by omega) (by omega)
  rw [hfold]

theorem parseField_eq_single {expr : List Char} {mn mx : Int}
    (h0 : expr ≠ ['*']) (h1 : '/' ∉ expr) (h23 : ¬ ('-' ∈ expr ∧ ¬ (',' ∈ expr)))
    (h4 : ',' ∉ expr) :
    parseField expr mn mx =
      match parseIntJS expr with
      | none => none
      | some v => if v < mn ∨ v > mx then none else some [v] := by
  rw [parseField, parseFieldF, if_neg h0, if_neg h1, if_neg h23, if_neg h4]

end CronParser

namespace CronParser

/-! ### The loop of `generateRange` computes the spec's arithmetic sequence -/

theorem arithSeq_step {i st e : Int} (hst : 0 < st) (h : i + st ≤ e) :
    arithSeq i st e = i :: arithSeq (i + st) st e := by
  rw [arithSeq, arithSeq, if_pos (by omega : i ≤ e), if_pos h]
  have hc : (e - i).toNat / st.toNat + 1 = ((e - (i + st)).toNat / st.toNat + 1) + 1 := by
    have h1 : (e - i).toNat = (e - (i + st)).toNat + st.toNat := by omega
    rw [h1, Nat.add_div_right _ (by omega : 0 < st.toNat)]
  rw [hc, List.range_succ_eq_map, List.map_cons, List.map_map]
  congr 1
  · simp
  · refine List.map_congr_left (fun k _ => ?_)
    simp only [Function.comp_apply]
    push_cast
    ring

theorem arithSeq_last {i st e : Int} (hst : 0 < st) (h1 : i ≤ e) (h2 : e < i + st) :
    arithSeq i st e = [i] := by
  rw [arithSeq, if_pos h1]
  have hz : (e - i).toNat / st.toNat = 0 := Nat.div_eq_of_lt (by omega)
  rw [hz]
  have hr : List.range 1 = [0] := rfl
  rw [hr]
  simp

theorem genLoop_eq_arithSeq {e st : Int} (hst : 0 < st) :
    ∀ (f : Nat) (i : Int), (e - i).toNat < f → genLoop f i e st = arithSeq i st e := by
  intro f
  induction f with
  | zero => intro i h; omega
  | succ f ih =>
    intro i hf
    rw [genLoop]
    by_cases hie : i ≤ e
    · rw [if_pos hie]
      by_cases hstep : i + st ≤ e
      · rw [ih (i + st) (by omega), arithSeq_step hst hstep]
      · rw [genLoop_nil_of_gt (by omega : e < i + st) f,
            arithSeq_last hst hie (by omega)]
    · rw [if_neg hie, arithSeq, if_neg hie]

theorem generateRange_eq_arithSeq {i e st : Int} (hst : 0 < st) :
    generateRange i e st = arithSeq i st e :=
  genLoop_eq_arithSeq hst _ i (by omega)

/-! ### Distinct in-bounds integer lists are short -/

theorem length_le_of_sorted_bounded {l : List Int} {mn mx : Int}
    (hs : l.Sorted (· < ·)) (hb : ∀ v ∈ l, mn ≤ v ∧ v ≤ mx) :
    l.length ≤ (mx - mn).toNat + 1 := by
  have hnd : l.Nodup := hs.nodup
  have hcard : l.toFinset.card = l.length := List.toFinset_card_of_nodup hnd
  have hsub : l.toFinset ⊆ Finset.Icc mn mx := by
    intro v hv
    rw [List.mem_toFinset] at hv
    exact Finset.mem_Icc.mpr (hb v hv)
  have hle := Finset.card_le_card hsub
  rw [hcard, Int.card_Icc] at hle
  omega

/-! ### Invariant of every slash-free expression -/

/-- On any slash-free expression a successful parse yields in-bounds values
in strictly ascending order, and (when the bounds are sane) at least one
value.  Step expressions are the only ones that escape the bounds. -/
theorem parseFieldF_noSlash :
    ∀ (f : Nat) (expr : List Char) (mn mx : Int) (l : List Int),
      '/' ∉ expr → parseFieldF f expr mn mx = some l →
      (∀ v ∈ l, mn ≤ v ∧ v ≤ mx) ∧ l.Sorted (· < ·) ∧ (mn ≤ mx → l ≠ []) := by
  intro f
  induction f with
  | zero => intro expr mn mx l hs h; exact Option.noConfusion h
  | succ f ih =>
    intro expr mn mx l hs h
    rw [parseFieldF] at h
    by_cases h1 : expr = ['*']
    · rw [if_pos h1] at h
      have hl : l = generateRange mn mx 1 := (Option.some.inj h).symm
      subst hl
      exact ⟨fun v hv => generateRange_mem_bounds one_pos hv,
             generateRange_sorted one_pos,
             fun hmm => generateRange_ne_nil hmm⟩
    · rw [if_neg h1, if_neg hs] at h
      by_cases h3 : '-' ∈ expr ∧ ¬ (',' ∈ expr)
      · rw [if_pos h3, parseRange] at h
        split at h
        · split at h
          · next av bv hpa hpb =>
            split at h
            · exact Option.noConfusion h
            · next hcond =>
              have hl : l = generateRange av bv 1 := (Option.some.inj h).symm
              subst hl
              push_neg at hcond
              refine ⟨fun v hv => ?_, generateRange_sorted one_pos, fun _ => ?_⟩
              · have := generateRange_mem_bounds one_pos hv
                omega
              · exact generateRange_ne_nil (by omega)
          · next hcatch => exact Option.noConfusion h
        · exact Option.noConfusion h
      · rw [if_neg h3] at h
        by_cases h4 : ',' ∈ expr
        · rw [if_pos h4] at h
          split at h
          · exact Option.noConfusion h
          · next vals heq =>
            rcases @foldlM_addAll_some
                (fun p => parseFieldF f (trimChars p) mn mx) _ [] vals heq with
              ⟨hmem, hall, hnd⟩
            have hl : l = List.insertionSort (· ≤ ·) vals := (Option.some.inj h).symm
            subst hl
            have hvalsnd : vals.Nodup := hnd List.nodup_nil
            have hsortnd : (List.insertionSort (· ≤ ·) vals).Nodup :=
              ((List.perm_insertionSort _ vals).nodup_iff).mpr hvalsnd
            refine ⟨fun v hv => ?_, ?_, fun hmm => ?_⟩
            · rw [List.mem_insertionSort] at hv
              rcases (hmem v).mp hv with hv0 | ⟨p, hp, lp, hlp, hvlp⟩
              · simp at hv0
              · have hslp : '/' ∉ trimChars p :=
                  fun hc => hs (splitChar_mem_sub hp (mem_trimChars hc))
                exact (ih (trimChars p) mn mx lp hslp hlp).1 v hvlp
            · exact (List.sorted_insertionSort _ vals).lt_of_le hsortnd
            · obtain ⟨p0, ps0, hps⟩ : ∃ p0 ps0, splitChar ',' expr = p0 :: ps0 := by
                cases hsc : splitChar ',' expr with
                | nil => exact absurd hsc (splitChar_ne_nil ',' expr)
                | cons a b => exact ⟨a, b, rfl⟩
              have hp0 : p0 ∈ splitChar ',' expr := hps ▸ List.mem_cons_self _ _
              rcases hall p0 hp0 with ⟨lp0, hlp0⟩
              have hs0 : '/' ∉ trimChars p0 :=
                fun hc => hs (splitChar_mem_sub hp0 (mem_trimChars hc))
              have hne0 : lp0 ≠ [] := (ih (trimChars p0) mn mx lp0 hs0 hlp0).2.2 hmm
              obtain ⟨v0, hv0⟩ := List.exists_mem_of_ne_nil lp0 hne0
              have hv0' : v0 ∈ List.insertionSort (· ≤ ·) vals := by
                rw [List.mem_insertionSort]
                exact (hmem v0).mpr (Or.inr ⟨p0, hp0, lp0, hlp0, hv0⟩)
              intro hnil
              rw [hnil] at hv0'
              simp at hv0'
        · rw [if_neg h4] at h
          split at h
          · exact Option.noConfusion h
          · next v hv =>
            split at h
            · exact Option.noConfusion h
            · next hcond =>
              have hl : l = [v] := (Option.some.inj h).symm
              subst hl
              push_neg at hcond
              exact ⟨fun w hw => by
                  rcases List.mem_singleton.mp hw with rfl
                  omega,
                List.sorted_singleton v, fun _ => by simp⟩

end CronParser

namespace CronParser

/-- Claim C1, corrected.  As stated the claim fails on the code: the step
rule performs no bounds check, so a successful expansion can contain values
outside `[min, max]` and can even be empty.  For every slash-free
expression (hence wildcard, range, list and single-value forms, where the
claimed invariant is real) with sane bounds, a successful `expand` is
non-empty and every element lies within `[min, max]`. -/
theorem claim1_value_set_invariant (expr : List Char) (mn mx : Int) (l : List Int)
    (hslashfree : '/' ∉ expr) (hmm : mn ≤ mx) (h : parseField expr mn mx = some l) :
    l ≠ [] ∧ ∀ v ∈ l, mn ≤ v ∧ v ≤ mx := by
  have hm := parseFieldF_noSlash (expr.count ',' + 1) expr mn mx l hslashfree h
  exact ⟨hm.2.2 hmm, hm.1⟩

/-- Claim C1's counterexample: `expand("50-70/10", 0, 59)` succeeds with
values `60` and `70` above `max = 59`, and `expand("70/10", 0, 59)`
succeeds with the empty sequence. -/
theorem claim1_counterexample :
    parseField ("50-70/10".toList) 0 59 = some [50, 60, 70] ∧
    ¬ (∀ v ∈ ([50, 60, 70] : List Int), 0 ≤ v ∧ v ≤ 59) ∧
    parseField ("70/10".toList) 0 59 = some [] := by decide

/-- Claim C1's witness: the invariant at `expand("1,2-5,10", 0, 59)`. -/
theorem claim1_witness :
    ([1, 2, 3, 4, 5, 10] : List Int) ≠ [] ∧
    ∀ v ∈ ([1, 2, 3, 4, 5, 10] : List Int), (0 : Int) ≤ v ∧ v ≤ 59 :=
  claim1_value_set_invariant ("1,2-5,10".toList) 0 59 [1, 2, 3, 4, 5, 10]
    (by decide) (by decide) (by decide)

/-- Claim C2: for a step expression `base/n` the step text must parse as a
positive integer, otherwise `ParseError`; base `*` resolves to `[min, max]`,
a range base `a-b` to `[a, b]`, and a bare integer base `s` to `[s, max]`
with no bounds check of `s` against `min`; the result is the arithmetic
sequence `start, start+n, start+2n, ...` of all such values `≤` the
resolved end. -/
theorem claim2_step_rule (expr base st : List Char) (rest : List (List Char)) (mn mx : Int)
    (hslash : '/' ∈ expr) (hsplit : splitChar '/' expr = base :: st :: rest) :
    (parseIntJS st = none → parseField expr mn mx = none) ∧
    (∀ n : Int, parseIntJS st = some n → n ≤ 0 → parseField expr mn mx = none) ∧
    (∀ n : Int, parseIntJS st = some n → 0 < n →
      (base = ['*'] → parseField expr mn mx = some (arithSeq mn n mx)) ∧
      (∀ (a b : List Char) (rs : List (List Char)) (av bv : Int),
        '-' ∈ base → splitChar '-' base = a :: b :: rs →
        parseIntJS a = some av → parseIntJS b = some bv →
        parseField expr mn mx = some (arithSeq av n bv)) ∧
      ('-' ∉ base → base ≠ ['*'] → ∀ s : Int, parseIntJS base = some s →
        parseField expr mn mx = some (arithSeq s n mx))) := by
  rw [parseField_eq_parseStepValue hslash]
  refine ⟨fun hnone => ?_, fun n hn hle => ?_,
    fun n hn hpos => ⟨fun hb => ?_, fun a b rs av bv hdash hsb hpa hpb => ?_,
      fun hnd hnb s hps => ?_⟩⟩
  · simp only [parseStepValue, hsplit, hnone]
  · simp only [parseStepValue, hsplit, hn]
    rw [if_pos hle]
  · subst hb
    simp only [parseStepValue, hsplit, hn]
    rw [if_neg (by omega : ¬ n ≤ 0)]
    simp only [if_true]
    rw [generateRange_eq_arithSeq hpos]
  · simp only [parseStepValue, hsplit, hn]
    have hbne : base ≠ ['*'] := by
      rintro rfl
      simp at hdash
    rw [if_neg (by omega : ¬ n ≤ 0), if_neg hbne, if_pos hdash]
    simp only [hsb, hpa, hpb]
    rw [generateRange_eq_arithSeq hpos]
  · simp only [parseStepValue, hsplit, hn]
    rw [if_neg (by omega : ¬ n ≤ 0), if_neg hnb, if_neg hnd]
    simp only [hps]
    rw [generateRange_eq_arithSeq hpos]

/-- Claim C2's witness: `expand("*/15", 0, 59)` is the stepped sequence
starting at `0` with step `15` up to `59`. -/
theorem claim2_witness : parseField ("*/15".toList) 0 59 = some (arithSeq 0 15 59) :=
  ((claim2_step_rule ("*/15".toList) ['*'] ("15".toList) [] 0 59 (by decide)
    (by decide)).2.2 15 (by decide) (by decide)).1 rfl

/-- Claim C3: a range expression `a-b` (with `-`, no `,`, no `/`) whose
parts parse as integers fails with `ParseError` unless
`min ≤ a ≤ b ≤ max`, in which case the result is exactly the ascending
sequence `a, a+1, ..., b`; a non-numeric part fails with `ParseError`. -/
theorem claim3_range_rule (expr a b : List Char) (rest : List (List Char)) (mn mx : Int)
    (hdash : '-' ∈ expr) (hcomma : ',' ∉ expr) (hslashfree : '/' ∉ expr)
    (hsplit : splitChar '-' expr = a :: b :: rest) :
    ((parseIntJS a = none ∨ parseIntJS b = none) → parseField expr mn mx = none) ∧
    (∀ av bv : Int, parseIntJS a = some av → parseIntJS b = some bv →
      (¬ (mn ≤ av ∧ av ≤ bv ∧ bv ≤ mx) → parseField expr mn mx = none) ∧
      (mn ≤ av → av ≤ bv → bv ≤ mx →
        parseField expr mn mx = some (arithSeq av 1 bv))) := by
  rw [parseField_eq_parseRange hslashfree hdash hcomma]
  refine ⟨fun hnone => ?_, fun av bv hpa hpb => ⟨fun hbad => ?_, fun h1 h2 h3 => ?_⟩⟩
  · simp only [parseRange, hsplit]
    rcases hnone with hna | hnb
    · simp only [hna]
    · cases hpa2 : parseIntJS a with
      | none => simp only [hpa2]
      | some av => simp only [hpa2, hnb]
  · simp only [parseRange, hsplit, hpa, hpb]
    rw [if_pos (by omega)]
  · simp only [parseRange, hsplit, hpa, hpb]
    rw [if_neg (by omega), generateRange_eq_arithSeq one_pos]

/-- Claim C3's witness: `expand("1-5", 0, 59)` is `1, 2, 3, 4, 5`. -/
theorem claim3_witness : parseField ("1-5".toList) 0 59 = some (arithSeq 1 1 5) :=
  ((claim3_range_rule ("1-5".toList) ['1'] ['5'] [] 0 59 (by decide) (by decide)
    (by decide) (by decide)).2 1 5 (by decide) (by decide)).2 (by decide) (by decide)
    (by decide)

/-- Claim C4: a successful expansion of a list expression (`,` and no `/`)
is strictly ascending (hence deduplicated) and contains exactly the union
of the expansions of its comma-separated (trimmed) elements under the same
bounds; in particular `expand("1,2-5,10", 0, 59) = [1,2,3,4,5,10]`. -/
theorem claim4_list_union (expr : List Char) (mn mx : Int) (l : List Int)
    (hcomma : ',' ∈ expr) (hslashfree : '/' ∉ expr)
    (h : parseField expr mn mx = some l) :
    l.Sorted (· < ·) ∧
    (∀ v : Int, v ∈ l ↔
      ∃ p ∈ splitChar ',' expr, ∃ lp, parseField (trimChars p) mn mx = some lp ∧ v ∈ lp) ∧
    parseField ("1,2-5,10".toList) 0 59 = some [1, 2, 3, 4, 5, 10] := by
  have hm := parseFieldF_noSlash (expr.count ',' + 1) expr mn mx l hslashfree h
  refine ⟨hm.2.1, ?_, by decide⟩
  rw [parseField_eq_parseList hslashfree hcomma, parseList] at h
  split at h
  · exact Option.noConfusion h
  · next vals heq =>
    have hl : l = List.insertionSort (· ≤ ·) vals := (Option.some.inj h).symm
    subst hl
    rcases @foldlM_addAll_some (fun p => parseField (trimChars p) mn mx) _ [] vals heq with
      ⟨hmem, hall, hnd⟩
    intro v
    rw [List.mem_insertionSort, hmem v]
    simp

/-- Claim C4's witness: the sortedness conclusion at
`expand("1,2-5,10", 0, 59)`. -/
theorem claim4_witness : ([1, 2, 3, 4, 5, 10] : List Int).Sorted (· < ·) :=
  (claim4_list_union ("1,2-5,10".toList) 0 59 [1, 2, 3, 4, 5, 10] (by decide)
    (by decide) (by decide)).1

/-- Claim C5: a single-value expression (none of `*`, `/`, `-`, `,`) fails
with `ParseError` when non-numeric or out of `[min, max]`, and otherwise
expands to the one-element sequence of its integer value. -/
theorem claim5_single_value (expr : List Char) (mn mx : Int)
    (h1 : '*' ∉ expr) (h2 : '/' ∉ expr) (h3 : '-' ∉ expr) (h4 : ',' ∉ expr) :
    (parseIntJS expr = none → parseField expr mn mx = none) ∧
    (∀ v : Int, parseIntJS expr = some v →
      ((v < mn ∨ v > mx) → parseField expr mn mx = none) ∧
      (mn ≤ v → v ≤ mx → parseField expr mn mx = some [v])) := by
  have h0 : expr ≠ ['*'] := by
    rintro rfl
    simp at h1
  have h23 : ¬ ('-' ∈ expr ∧ ¬ (',' ∈ expr)) := fun hcc => h3 hcc.1
  rw [parseField_eq_single h0 h2 h23 h4]
  refine ⟨fun hnone => ?_, fun v hv => ⟨fun hout => ?_, fun hl hr => ?_⟩⟩
  · simp only [hnone]
  · simp only [hv]
    rw [if_pos hout]
  · simp only [hv]
    rw [if_neg (by omega)]

/-- Claim C5's witness: `expand("30", 0, 59) = [30]`. -/
theorem claim5_witness : parseField ("30".toList) 0 59 = some [30] :=
  ((claim5_single_value ("30".toList) 0 59 (by decide) (by decide) (by decide)
    (by decide)).2 30 (by decide)).2 (by decide) (by decide)

end CronParser

namespace CronParser

/-- Claim C6, corrected.  As stated the claim fails on the code: the
unchecked step rule can return far more than `max - min + 1` values.  For
every slash-free expression expanded against one of the five field bounds,
a successful expansion has at most `max - min + 1` elements, hence at most
60 per field. -/
theorem claim6_field_size_bound (expr : List Char) (mn mx : Int) (l : List Int)
    (hslashfree : '/' ∉ expr) (hcfg : (mn, mx) ∈ FIELD_CONFIG)
    (h : parseField expr mn mx = some l) :
    l.length ≤ (mx - mn).toNat + 1 ∧ l.length ≤ 60 := by
  have hm := parseFieldF_noSlash (expr.count ',' + 1) expr mn mx l hslashfree h
  have hlen := length_le_of_sorted_bounded hm.2.1 hm.1
  refine ⟨hlen, ?_⟩
  have hcases : (mn = 0 ∧ mx = 59) ∨ (mn = 0 ∧ mx = 23) ∨ (mn = 1 ∧ mx = 31) ∨
      (mn = 1 ∧ mx = 12) ∨ (mn = 0 ∧ mx = 6) := by
    simpa [FIELD_CONFIG, Prod.ext_iff] using hcfg
  rcases hcases with ⟨rfl, rfl⟩ | ⟨rfl, rfl⟩ | ⟨rfl, rfl⟩ | ⟨rfl, rfl⟩ | ⟨rfl, rfl⟩ <;>
    omega

/-- Claim C6's counterexample: `expand("0-80/1", 0, 59)` (minute bounds)
succeeds with 81 elements, more than `59 - 0 + 1 = 60`. -/
theorem claim6_counterexample :
    parseField ("0-80/1".toList) 0 59 ≠ none ∧
    ((parseField ("0-80/1".toList) 0 59).getD []).length = 81 ∧
    ¬ (81 ≤ ((59 : Int) - 0).toNat + 1) ∧ ¬ (81 ≤ 60) := by decide

/-- Claim C6's witness: the bound at `expand("*", 0, 59)`. -/
theorem claim6_witness :
    (generateRange 0 59 1).length ≤ ((59 : Int) - 0).toNat + 1 ∧
    (generateRange 0 59 1).length ≤ 60 :=
  claim6_field_size_bound ("*".toList) 0 59 (generateRange 0 59 1) (by decide)
    (by decide) (by decide)

/-- Claim C7: `parseSchedule` fails with `ParseError` on empty input and
whenever trimming and splitting on whitespace runs yields fewer than six
tokens; in particular on `""` and `"* * * *"`. -/
theorem claim7_schedule_rejects (s : String)
    (h : s = "" ∨ (wsTokens s.toList).length < 6) :
    parseCronExpression s = none := by
  simp only [parseCronExpression]
  by_cases hnil : s.toList = []
  · rw [if_pos hnil]
  · have htok : (wsTokens s.toList).length < 6 := by
      rcases h with rfl | h
      · exact absurd rfl hnil
      · exact h
    rw [if_neg hnil, if_pos htok]

/-- Claim C7's witness: the two named inputs are rejected. -/
theorem claim7_witness :
    parseCronExpression "" = none ∧ parseCronExpression "* * * *" = none :=
  ⟨claim7_schedule_rejects "" (Or.inl rfl),
   claim7_schedule_rejects "* * * *" (Or.inr (by decide))⟩

/-- Claim C8: the end-to-end example: `parseSchedule("*/15 0 1,15 * 1-5
/usr/bin/find")` yields minute `[0,15,30,45]`, hour `[0]`, day of month
`[1,15]`, month `[1..12]`, day of week `[1,2,3,4,5]`, and the command
`"/usr/bin/find"`, the five fields expanded against the fixed bounds. -/
theorem claim8_end_to_end :
    parseCronExpression "*/15 0 1,15 * 1-5 /usr/bin/find" =
      some ⟨[0, 15, 30, 45], [0], [1, 15],
            [1, 2, 3, 4, 5, 6, 7, 8, 9, 10, 11, 12], [1, 2, 3, 4, 5],
            "/usr/bin/find".toList⟩ := by decide

/-- Claim C10: `expand` terminates on every input.  In this embedding the
recursion of `parseFieldF` carries an explicit budget; any budget above
the number of commas — and the list rule cannot recurse into an element
containing a comma — yields the fixed point `parseField`, and the
`generateRange` loop is insensitive to any iteration budget beyond
`(end - start).toNat` when its step is strictly positive. -/
theorem claim10_termination :
    (∀ (expr : List Char) (mn mx : Int) (f : Nat), expr.count ',' < f →
        parseFieldF f expr mn mx = parseField expr mn mx) ∧
    (∀ (s p : List Char), p ∈ splitChar ',' s → ',' ∉ p) ∧
    (∀ (i e st : Int) (f : Nat), 0 < st → (e - i).toNat < f →
        genLoop f i e st = generateRange i e st) := by
  refine ⟨fun expr mn mx f hf => ?_, fun s p hp => splitChar_not_mem hp,
    fun i e st f hst hf => ?_⟩
  · exact parseFieldF_congr f (expr.count ',' + 1) expr mn mx hf (by omega)
  · rw [genLoop_eq_arithSeq hst f i hf, generateRange_eq_arithSeq hst]

/-- Claim C10's witness: budget-independence at concrete inputs. -/
theorem claim10_witness :
    parseFieldF 9 ("1,2-5,10".toList) 0 59 = parseField ("1,2-5,10".toList) 0 59 ∧
    ',' ∉ (['1'] : List Char) ∧
    genLoop 100 0 59 15 = generateRange 0 59 15 :=
  ⟨claim10_termination.1 ("1,2-5,10".toList) 0 59 9 (by decide),
   claim10_termination.2.1 ("1,2-5,10".toList) ['1'] (by decide),
   claim10_termination.2.2 0 59 15 100 (by decide) (by decide)⟩

end CronParser

namespace CronParser

/-! ### Trimming of list elements (claim C9) -/

theorem dropWhile_cons_self (w : Char → Bool) (c : Char) (x : List Char)
    (h : (c :: x).dropWhile w = c :: x) : w c = false := by
  cases hwc : w c with
  | false => rfl
  | true =>
    exfalso
    rw [List.dropWhile_cons, hwc, if_pos rfl] at h
    have hlen : (x.dropWhile w).length ≤ x.length := (List.dropWhile_sublist w).length_le
    rw [h, List.length_cons] at hlen
    omega

/-- A list with no leading `w`-characters keeps that property after its
trailing `w`-characters are removed. -/
theorem dropWhile_front_stable (w : Char → Bool) (t : List Char)
    (htt : t.dropWhile w = t) :
    ((t.reverse.dropWhile w).reverse).dropWhile w = (t.reverse.dropWhile w).reverse := by
  have hsplit : t = (t.reverse.dropWhile w).reverse ++ (t.reverse.takeWhile w).reverse := by
    calc t = t.reverse.reverse := (List.reverse_reverse t).symm
    _ = (t.reverse.takeWhile w ++ t.reverse.dropWhile w).reverse := by
          rw [List.takeWhile_append_dropWhile]
    _ = (t.reverse.dropWhile w).reverse ++ (t.reverse.takeWhile w).reverse := by
          rw [List.reverse_append]
  cases hcu : (t.reverse.dropWhile w).reverse with
  | nil => simp [hcu]
  | cons c u2 =>
    rw [hcu] at hsplit
    have hc : w c = false := by
      refine dropWhile_cons_self w c (u2 ++ (t.reverse.takeWhile w).reverse) ?_
      rw [hsplit] at htt
      exact htt
    rw [List.dropWhile_cons, hc, if_neg Bool.false_ne_true]

/-- `trim` is idempotent. -/
theorem trimChars_trimChars (s : List Char) : trimChars (trimChars s) = trimChars s := by
  have hB : (trimChars s).dropWhile isWS = trimChars s :=
    dropWhile_front_stable isWS (s.dropWhile isWS) (List.dropWhile_idempotent isWS s)
  show (((trimChars s).dropWhile isWS).reverse.dropWhile isWS).reverse = trimChars s
  rw [hB]
  show ((((s.dropWhile isWS).reverse.dropWhile isWS).reverse).reverse.dropWhile isWS).reverse
      = trimChars s
  rw [List.reverse_reverse, List.dropWhile_idempotent]
  rfl

theorem splitP_eq_single {q : Char → Bool} :
    ∀ {s : List Char}, (∀ c ∈ s, q c = false) → splitP q s = [s] := by
  intro s
  induction s with
  | nil => intro _; rfl
  | cons c cs ih =>
    intro h
    have hc : q c = false := h c (List.mem_cons_self _ _)
    rw [splitP, if_neg (by simp [hc] : ¬ (q c = true)),
        ih (fun d hd => h d (List.mem_cons_of_mem _ hd))]

theorem splitP_append_cons {q : Char → Bool} (d : Char) (r : List Char) (hd : q d = true) :
    ∀ (u : List Char), (∀ c ∈ u, q c = false) →
      splitP q (u ++ d :: r) = u :: splitP q r := by
  intro u
  induction u with
  | nil =>
    intro _
    show splitP q (d :: r) = [] :: splitP q r
    rw [splitP, if_pos hd]
  | cons c cs ih =>
    intro h
    have hc : q c = false := h c (List.mem_cons_self _ _)
    show splitP q (c :: (cs ++ d :: r)) = (c :: cs) :: splitP q r
    rw [splitP, if_neg (by simp [hc] : ¬ (q c = true)),
        ih (fun e he => h e (List.mem_cons_of_mem _ he))]

/-- Splitting on `,` undoes `joinComma` on comma-free elements. -/
theorem splitChar_joinComma :
    ∀ (ps : List (List Char)), ps ≠ [] → (∀ p ∈ ps, ',' ∉ p) →
      splitChar ',' (joinComma ps) = ps := by
  intro ps
  induction ps with
  | nil => intro h _; exact absurd rfl h
  | cons p ps ih =>
    intro _ hfree
    cases ps with
    | nil =>
      show splitChar ',' p = [p]
      apply splitP_eq_single
      intro c hc
      rw [beq_eq_false_iff_ne]
      rintro rfl
      exact hfree p (List.mem_cons_self _ _) hc
    | cons p2 ps2 =>
      have hfp : ∀ c ∈ p, (c == ',') = false := by
        intro c hc
        rw [beq_eq_false_iff_ne]
        rintro rfl
        exact hfree p (List.mem_cons_self _ _) hc
      show splitP (fun x => x == ',') (p ++ ',' :: joinComma (p2 :: ps2))
          = p :: p2 :: ps2
      rw [splitP_append_cons ',' (joinComma (p2 :: ps2)) rfl p hfp]
      have hrest : splitP (fun x => x == ',') (joinComma (p2 :: ps2)) = p2 :: ps2 :=
        ih (by simp) (fun e he => hfree e (List.mem_cons_of_mem _ he))
      rw [hrest]

theorem mem_joinComma {c : Char} :
    ∀ {ps : List (List Char)}, c ∈ joinComma ps → c = ',' ∨ ∃ p ∈ ps, c ∈ p := by
  intro ps
  induction ps with
  | nil => intro h; simp [joinComma] at h
  | cons p ps ih =>
    intro h
    cases ps with
    | nil => exact Or.inr ⟨p, List.mem_cons_self _ _, h⟩
    | cons p2 ps2 =>
      have h2 : c ∈ p ++ ',' :: joinComma (p2 :: ps2) := h
      rw [List.mem_append] at h2
      rcases h2 with h2 | h2
      · exact Or.inr ⟨p, List.mem_cons_self _ _, h2⟩
      · rcases List.mem_cons.mp h2 with rfl | h3
        · exact Or.inl rfl
        · rcases ih h3 with h4 | ⟨q, hq, hcq⟩
          · exact Or.inl h4
          · exact Or.inr ⟨q, List.mem_cons_of_mem _ hq, hcq⟩

/-- A string containing the separator splits into at least two pieces. -/
theorem splitChar_two_of_mem {sep : Char} :
    ∀ {s : List Char}, sep ∈ s → ∃ a b rest, splitChar sep s = a :: b :: rest := by
  intro s
  induction s with
  | nil => intro h; simp at h
  | cons c cs ih =>
    intro h
    by_cases hc : c = sep
    · obtain ⟨t, ts, hts⟩ : ∃ t ts, splitP (fun x => x == sep) cs = t :: ts := by
        cases hsp : splitP (fun x => x == sep) cs with
        | nil => exact absurd hsp (splitP_ne_nil _ cs)
        | cons t ts => exact ⟨t, ts, rfl⟩
      refine ⟨[], t, ts, ?_⟩
      show splitP (fun x => x == sep) (c :: cs) = [] :: t :: ts
      rw [splitP, if_pos (by simp [hc] : ((c == sep) = true)), hts]
    · have hcs : sep ∈ cs := by
        rcases List.mem_cons.mp h with h1 | h1
        · exact absurd h1.symm hc
        · exact h1
      obtain ⟨a, b, rest, hab⟩ := ih hcs
      refine ⟨c :: a, b, rest, ?_⟩
      show splitP (fun x => x == sep) (c :: cs) = (c :: a) :: b :: rest
      have hab2 : splitP (fun x => x == sep) cs = a :: b :: rest := hab
      rw [splitP, if_neg (by simp [hc] : ¬ ((c == sep) = true)), hab2]

theorem foldlM_map {β : Type} (g : β → List Char)
    (f : List Int → List Char → Option (List Int)) :
    ∀ (l : List β) (init : List Int),
      (l.map g).foldlM f init = l.foldlM (fun acc x => f acc (g x)) init := by
  intro l
  induction l with
  | nil => intro init; rfl
  | cons p ps ih =>
    intro init
    simp only [List.map_cons, List.foldlM_cons]
    cases f init (g p) with
    | none => rfl
    | some acc => exact ih acc

set_option maxRecDepth 8192 in
/-- Claim C9: each comma-separated element of a list expression is stripped
of surrounding whitespace before its recursive expansion: for every list
expression and every bounds pair, expanding it gives the same result as
expanding the rejoined list of trimmed elements; the instance `"5, *"`
discriminates the trim, expanding like `"5,*"` to the full range even
though the raw padded element `" *"` alone fails to parse. -/
theorem claim9_list_trim :
    (∀ (expr : List Char) (mn mx : Int), ',' ∈ expr → '/' ∉ expr →
      parseField expr mn mx
        = parseField (joinComma ((splitChar ',' expr).map trimChars)) mn mx) ∧
    parseField ("5, *".toList) 0 59 = parseField ("5,*".toList) 0 59 ∧
    parseField ("5, *".toList) 0 59 = some (generateRange 0 59 1) ∧
    parseField (" *".toList) 0 59 = none := by
  refine ⟨fun expr mn mx hcomma hslashfree => ?_, by decide, by decide, by decide⟩
  obtain ⟨a, b, rest, hab⟩ := splitChar_two_of_mem hcomma
  have helems : ∀ p ∈ (splitChar ',' expr).map trimChars, ',' ∉ p := by
    intro p hp
    rw [List.mem_map] at hp
    obtain ⟨q, hq, rfl⟩ := hp
    exact fun hc => splitChar_not_mem hq (mem_trimChars hc)
  have hne : (splitChar ',' expr).map trimChars ≠ [] := by
    rw [hab]
    simp
  have hround : splitChar ',' (joinComma ((splitChar ',' expr).map trimChars))
      = (splitChar ',' expr).map trimChars :=
    splitChar_joinComma _ hne helems
  have hcomma2 : ',' ∈ joinComma ((splitChar ',' expr).map trimChars) := by
    rw [hab, List.map_cons, List.map_cons]
    have hj : joinComma (trimChars a :: trimChars b :: rest.map trimChars)
        = trimChars a ++ ',' :: joinComma (trimChars b :: rest.map trimChars) := rfl
    rw [hj]
    simp
  have hslash2 : '/' ∉ joinComma ((splitChar ',' expr).map trimChars) := by
    intro hmem
    rcases mem_joinComma hmem with hmm | ⟨p, hp, hin⟩
    · exact absurd hmm (by decide)
    · rw [List.mem_map] at hp
      obtain ⟨q, hq, rfl⟩ := hp
      exact hslashfree (splitChar_mem_sub hq (mem_trimChars hin))
  rw [parseField_eq_parseList hslashfree hcomma,
      parseField_eq_parseList hslash2 hcomma2]
  simp only [parseList]
  rw [hround]
  have hX :
      ((splitChar ',' expr).map trimChars).foldlM
          (fun acc p => (parseField (trimChars p) mn mx).map (addAll acc)) ([] : List Int)
        = (splitChar ',' expr).foldlM
          (fun acc p => (parseField (trimChars p) mn mx).map (addAll acc)) [] := by
    rw [foldlM_map]
    exact foldlM_addAll_congr _ (fun p hp => by rw [trimChars_trimChars]) []
  rw [hX]

/-- Claim C9's witness: the trimming equality at the discriminating list
expression `"5, *"` with the minute bounds. -/
theorem claim9_witness :
    parseField ("5, *".toList) 0 59
      = parseField (joinComma ((splitChar ',' ("5, *".toList)).map trimChars)) 0 59 :=
  claim9_list_trim.1 ("5, *".toList) 0 59 (by decide) (by decide)

end CronParser
